import Mathlib

/-!
Shallow embedding of src/spectral/source/spectrum.hpp.

Floating-point numbers are modelled as exact rationals (ℚ); the caller-owned
parallel arrays wavelengths/values are modelled as total maps ℕ → ℚ together
with an explicit element count, matching pointer-plus-count C arrays.  The two
source loops with data-dependent exit conditions (the cursor-advance while
loop and the segment for loop of averageSamples) are modelled with an explicit
fuel argument; averageSamples passes fuel = count, which is shown sufficient
under the documented preconditions.
-/

/-- enum value SpectralSampleCount = 60 in spectrum.hpp. -/
def SpectralSampleCount : ℕ := 60

/-- enum value WavelengthBegin = 400, used as float(WavelengthBegin). -/
def WavelengthBegin : ℚ := 400

/-- enum value WavelengthEnd = 700, used as float(WavelengthEnd). -/
def WavelengthEnd : ℚ := 700

/-- A SampledSpectrum stores SpectralSampleCount float samples; modelled as a
total map whose meaningful indices are 0 .. SpectralSampleCount - 1. -/
def SampledSpectrum : Type := ℕ → ℚ

/-- struct Float3 { float a, b, c; }. -/
structure Float3 where
  a : ℚ
  b : ℚ
  c : ℚ
deriving DecidableEq, Repr

/-- The local lambda in averageSamples:
t = (l - w[i]) / (w[i+1] - w[i]); v[i]*(1-t) + v[i+1]*t. -/
def interpolate (w v : ℕ → ℚ) (l : ℚ) (i : ℕ) : ℚ :=
  let t : ℚ := (l - w i) / (w (i + 1) - w i)
  v i * (1 - t) + v (i + 1) * t

/-- The cursor-advance loop of averageSamples:
  while (lBegin > wavelengths[i + 1]) ++i;
with an explicit fuel bound (the source loop has none; fuel = count is enough
under the preconditions, which is proved below). -/
def cursorAux (w : ℕ → ℚ) (lBegin : ℚ) : ℕ → ℕ → ℕ
  | 0, i => i
  | fuel + 1, i => if lBegin > w (i + 1) then cursorAux w lBegin fuel (i + 1) else i

/-- The segment loop of averageSamples:
  for (; (i + 1 < count) && (lEnd >= wavelengths[i]); ++i) {
    l0 = max(lBegin, w[i]); l1 = min(lEnd, w[i+1]);
    result += 0.5 * (interpolate(l0, i) + interpolate(l1, i)) * (l1 - l0); }
with fuel; the loop body runs at most count - 1 - i times, so fuel = count
always suffices. -/
def segLoopAux (w v : ℕ → ℚ) (count : ℕ) (lBegin lEnd : ℚ) : ℕ → ℕ → ℚ → ℚ
  | 0, _, acc => acc
  | fuel + 1, i, acc =>
    if i + 1 < count ∧ w i ≤ lEnd then
      segLoopAux w v count lBegin lEnd fuel (i + 1)
        (acc + (1/2) * (interpolate w v (max lBegin (w i)) i
                        + interpolate w v (min lEnd (w (i + 1))) i)
             * (min lEnd (w (i + 1)) - max lBegin (w i)))
    else acc

/-- SampledSpectrum::averageSamples from spectrum.hpp. -/
def averageSamples (w v : ℕ → ℚ) (count : ℕ) (lBegin lEnd : ℚ) : ℚ :=
  if count = 1 then v 0
  else if lEnd ≤ w 0 then v 0
  else if lBegin ≥ w (count - 1) then v (count - 1)
  else
    segLoopAux w v count lBegin lEnd count (cursorAux w lBegin count 0) 0
      * (1 / (lEnd - lBegin))

/-- SampledSpectrum::fromSamples from spectrum.hpp: bin i averages the input
over [l0, l1) with l0, l1 produced by the source's lerp expressions. -/
def fromSamples (w v : ℕ → ℚ) (count : ℕ) : SampledSpectrum :=
  fun i =>
    let t0 : ℚ := (i : ℚ) / (SpectralSampleCount : ℚ)
    let l0 : ℚ := WavelengthBegin * (1 - t0) + WavelengthEnd * t0
    let t1 : ℚ := ((i : ℚ) + 1) / (SpectralSampleCount : ℚ)
    let l1 : ℚ := WavelengthBegin * (1 - t1) + WavelengthEnd * t1
    averageSamples w v count l0 l1

namespace CIE

/-- constexpr uint32_t CIE::sampleCount = 471 in spectrum.hpp. -/
def sampleCount : ℕ := 471

end CIE

/-- Modelled from the spec: the CIE 1931 table columns CIE::wavelengths,
CIE::x, CIE::y, CIE::z are declared extern in spectrum.hpp and defined in a
translation unit that is not under src/, so the 471 numeric columns are kept
abstract here; the spec only guarantees 471 entries with strictly increasing
wavelengths, which theorems take as hypotheses where needed. -/
structure CIETable where
  wavelengths : ℕ → ℚ
  x : ℕ → ℚ
  y : ℕ → ℚ
  z : ℕ → ℚ

/-- SampledSpectrum::X(): fromSamples over the CIE wavelengths and x column. -/
def X (t : CIETable) : SampledSpectrum :=
  fromSamples t.wavelengths t.x CIE.sampleCount

/-- SampledSpectrum::Y(): fromSamples over the CIE wavelengths and y column. -/
def Y (t : CIETable) : SampledSpectrum :=
  fromSamples t.wavelengths t.y CIE.sampleCount

/-- SampledSpectrum::Z(): fromSamples over the CIE wavelengths and z column. -/
def Z (t : CIETable) : SampledSpectrum :=
  fromSamples t.wavelengths t.z CIE.sampleCount

/-- SampledSpectrum::yIntegral: the acquireIntegral lambda's loop
  for (i = 0; i < CIE::sampleCount; ++i) result += CIE::y[i]; -/
def yIntegral (t : CIETable) : ℚ :=
  (List.range CIE.sampleCount).foldl (fun acc i => acc + t.y i) 0

/-- SampledSpectrum::toXYZ: the accumulation loop over SampleCount bins,
then the scale (WavelengthEnd - WavelengthBegin) / (SampleCount * yIntegral). -/
def toXYZ (t : CIETable) (s : SampledSpectrum) : Float3 :=
  let acc : ℚ × ℚ × ℚ :=
    (List.range SpectralSampleCount).foldl
      (fun p i => (p.1 + X t i * s i, p.2.1 + Y t i * s i, p.2.2 + Z t i * s i))
      (0, 0, 0)
  let scale : ℚ := (WavelengthEnd - WavelengthBegin)
      / ((SpectralSampleCount : ℚ) * yIntegral t)
  ⟨acc.1 * scale, acc.2.1 * scale, acc.2.2 * scale⟩

/-- SampledSpectrum::toRGB: toXYZ followed by the fixed 3x3 matrix. -/
def toRGB (t : CIETable) (s : SampledSpectrum) : Float3 :=
  let xyz := toXYZ t s
  ⟨3.240479 * xyz.a - 1.537150 * xyz.b - 0.498535 * xyz.c,
   -0.969256 * xyz.a + 1.875991 * xyz.b + 0.041556 * xyz.c,
   0.055648 * xyz.a - 0.204043 * xyz.b + 1.057311 * xyz.c⟩

/-- Spec-side definition, following the spec's words: the lerp used to place
bin boundaries, lerp(t) = WavelengthBegin*(1-t) + WavelengthEnd*t. -/
def specLerp (t : ℚ) : ℚ :=
  WavelengthBegin * (1 - t) + WavelengthEnd * t

/-- Spec-side definition, following the spec's words: the exact (trapezoid)
integral of the linear interpolant of segment j over the overlap of
[w j, w (j+1)] with [a, b); a segment that does not overlap contributes 0. -/
def segTerm (w v : ℕ → ℚ) (a b : ℚ) (j : ℕ) : ℚ :=
  if max a (w j) < min b (w (j + 1)) then
    (1/2) * (interpolate w v (max a (w j)) j
             + interpolate w v (min b (w (j + 1))) j)
      * (min b (w (j + 1)) - max a (w j))
  else 0

/-- Spec-side definition, following the spec's words: the integral of the
piecewise-linear interpolant of the input table over the intersection of
[a, b) with the covered range [w 0, w (count-1)]: the sum of the per-segment
overlap integrals; in particular any part of [a, b) outside the covered range
contributes zero. -/
def pwlIntegral (w v : ℕ → ℚ) (count : ℕ) (a b : ℚ) : ℚ :=
  ∑ j ∈ Finset.range (count - 1), segTerm w v a b j

/-- Concrete two-point table from the spec's test property: wavelengths
[500, 600]. -/
def rampW : ℕ → ℚ := fun i => if i = 0 then 500 else 600

/-- Concrete two-point table from the spec's test property: values [0, 100]. -/
def rampV : ℕ → ℚ := fun i => if i = 0 then 0 else 100

/-- Concrete two-point table covering exactly [WavelengthBegin, WavelengthEnd]:
wavelengths [400, 700]. -/
def coverW : ℕ → ℚ := fun i => if i = 0 then 400 else 700

/-- Concrete constant value table: every value 3. -/
def constV : ℕ → ℚ := fun _ => 3

/-- Monotone transport of the strictly-increasing precondition: within the
count prefix the wavelengths are (non-strictly) ordered. -/
lemma w_mono_le (w : ℕ → ℚ) (count : ℕ)
    (hmono : ∀ j, j + 1 < count → w j < w (j + 1)) :
    ∀ i j, i ≤ j → j < count → w i ≤ w j := by
  intro i j
  induction j with
  | zero =>
    intro hij _
    rw [Nat.le_zero.mp hij]
  | succ n ih =>
    intro hij hj
    rcases Nat.eq_or_lt_of_le hij with h | h
    · rw [h]
    · exact le_trans (ih (Nat.lt_succ_iff.mp h) (Nat.lt_of_succ_lt hj))
        (le_of_lt (hmono n hj))

/-- The cursor-advance loop: if some in-range index satisfies the exit
condition, the loop exits at the first such index, within bounds. -/
lemma cursorAux_spec (w : ℕ → ℚ) (a : ℚ) (count : ℕ) :
    ∀ fuel i, (∃ d, d < fuel ∧ i + d + 1 < count ∧ a ≤ w (i + d + 1)) →
      a ≤ w (cursorAux w a fuel i + 1)
      ∧ (∀ j, i ≤ j → j < cursorAux w a fuel i → w (j + 1) < a)
      ∧ cursorAux w a fuel i + 1 < count
      ∧ i ≤ cursorAux w a fuel i := by
  intro fuel
  induction fuel with
  | zero =>
    rintro i ⟨d, hd, -, -⟩
    exact absurd hd (Nat.not_lt_zero d)
  | succ fuel ih =>
    rintro i ⟨d, hd, hdc, hdw⟩
    by_cases hbr : a > w (i + 1)
    · have hd0 : d ≠ 0 := by
        rintro rfl
        rw [Nat.add_zero] at hdw
        exact absurd hdw (not_le.mpr hbr)
      have harith : i + 1 + (d - 1) + 1 = i + d + 1 := by omega
      obtain ⟨r1, r2, r3, r4⟩ := ih (i + 1)
        ⟨d - 1, by omega, by rw [harith]; exact hdc, by rw [harith]; exact hdw⟩
      rw [cursorAux, if_pos hbr]
      refine ⟨r1, ?_, r3, le_trans (Nat.le_succ i) r4⟩
      intro j hij hjr
      rcases Nat.eq_or_lt_of_le hij with h | h
      · rw [← h]
        exact hbr
      · exact r2 j h hjr
    · rw [cursorAux, if_neg hbr]
      exact ⟨not_lt.mp hbr, fun j hij hji => absurd hij (Nat.not_le.mpr hji),
        by omega, le_refl i⟩

/-- The segment loop, started at a cursor position i with a ≤ w (i+1),
accumulates exactly the guarded per-segment overlap integrals of the
remaining segments: segments skipped by either loop bound are the ones whose
overlap with [a, b) is empty. -/
lemma segLoopAux_eq_sum (w v : ℕ → ℚ) (count : ℕ) (a b : ℚ)
    (hmono : ∀ j, j + 1 < count → w j < w (j + 1)) (hab : a < b) :
    ∀ fuel i acc, count ≤ fuel + i + 1 →
      (i + 1 < count → a ≤ w (i + 1)) →
      segLoopAux w v count a b fuel i acc
        = acc + ∑ j ∈ Finset.Ico i (count - 1), segTerm w v a b j := by
  intro fuel
  induction fuel with
  | zero =>
    intro i acc hfc _
    rw [segLoopAux, Finset.Ico_eq_empty (by omega), Finset.sum_empty, add_zero]
  | succ fuel ih =>
    intro i acc hfc ha
    by_cases hcond : i + 1 < count ∧ w i ≤ b
    · have hwi : w i < w (i + 1) := hmono i hcond.1
      have hai : a ≤ w (i + 1) := ha hcond.1
      have hanext : i + 1 + 1 < count → a ≤ w (i + 1 + 1) := fun hi2 =>
        le_trans hai (le_of_lt (hmono (i + 1) hi2))
      rw [segLoopAux, if_pos hcond]
      rw [ih (i + 1) _ (by omega) hanext]
      have hsplit : ∑ j ∈ Finset.Ico i (count - 1), segTerm w v a b j
          = segTerm w v a b i + ∑ j ∈ Finset.Ico (i + 1) (count - 1), segTerm w v a b j :=
        Finset.sum_eq_sum_Ico_succ_bot (by omega) _
      have hterm : (1/2) * (interpolate w v (max a (w i)) i
            + interpolate w v (min b (w (i + 1))) i)
          * (min b (w (i + 1)) - max a (w i)) = segTerm w v a b i := by
        have hle : max a (w i) ≤ min b (w (i + 1)) :=
          max_le (le_min (le_of_lt hab) hai) (le_min hcond.2 (le_of_lt hwi))
        rcases lt_or_eq_of_le hle with h | h
        · rw [segTerm, if_pos h]
        · rw [segTerm, if_neg (by rw [h]; exact lt_irrefl _), ← h, sub_self, mul_zero]
      rw [hsplit, hterm]
      ring
    · rw [segLoopAux, if_neg hcond]
      rcases Nat.lt_or_ge (i + 1) count with hic | hic
      · have hbw : b < w i := by
          rcases not_and_or.mp hcond with h | h
          · exact absurd hic h
          · exact not_le.mp h
        have hzero : ∀ j ∈ Finset.Ico i (count - 1), segTerm w v a b j = 0 := by
          intro j hj
          obtain ⟨hij, hjc⟩ := Finset.mem_Ico.mp hj
          have hwj : w i ≤ w j := w_mono_le w count hmono i j hij (by omega)
          have hng : ¬ max a (w j) < min b (w (j + 1)) := by
            have h1 : min b (w (j + 1)) ≤ b := min_le_left _ _
            have h2 : w j ≤ max a (w j) := le_max_right _ _
            have h3 : min b (w (j + 1)) < max a (w j) :=
              lt_of_le_of_lt h1 (lt_of_lt_of_le hbw (le_trans hwj h2))
            exact fun hguard => absurd h3 (not_lt.mpr (le_of_lt hguard))
          rw [segTerm, if_neg hng]
        rw [Finset.sum_eq_zero hzero, add_zero]
      · rw [Finset.Ico_eq_empty (by omega), Finset.sum_empty, add_zero]

/-- Core refinement: when the query interval has positive length and genuinely
overlaps the covered range, averageSamples computes the piecewise-linear
overlap integral divided by the full requested width. -/
lemma averageSamples_eq_pwl (w v : ℕ → ℚ) (count : ℕ) (lBegin lEnd : ℚ)
    (hc : 2 ≤ count) (hmono : ∀ j, j + 1 < count → w j < w (j + 1))
    (hab : lBegin < lEnd) (hov1 : w 0 < lEnd) (hov2 : lBegin < w (count - 1)) :
    averageSamples w v count lBegin lEnd
      = pwlIntegral w v count lBegin lEnd / (lEnd - lBegin) := by
  have hc1 : count ≠ 1 := by omega
  rw [averageSamples, if_neg hc1, if_neg (not_le.mpr hov1),
    if_neg (not_le.mpr hov2)]
  have hex : ∃ d, d < count ∧ 0 + d + 1 < count ∧ lBegin ≤ w (0 + d + 1) := by
    refine ⟨count - 2, by omega, by omega, ?_⟩
    have : 0 + (count - 2) + 1 = count - 1 := by omega
    rw [this]
    exact le_of_lt hov2
  obtain ⟨r1, r2, r3, r4⟩ := cursorAux_spec w lBegin count count 0 hex
  set i0 := cursorAux w lBegin count 0 with hi0
  rw [segLoopAux_eq_sum w v count lBegin lEnd hmono hab count i0 0
    (by omega) (fun _ => r1), zero_add]
  have hprefix : ∀ j ∈ Finset.Ico 0 i0, segTerm w v lBegin lEnd j = 0 := by
    intro j hj
    obtain ⟨-, hji⟩ := Finset.mem_Ico.mp hj
    have hwj : w (j + 1) < lBegin := r2 j (Nat.zero_le j) hji
    have hng : ¬ max lBegin (w j) < min lEnd (w (j + 1)) := by
      have h1 : min lEnd (w (j + 1)) ≤ w (j + 1) := min_le_right _ _
      have h2 : lBegin ≤ max lBegin (w j) := le_max_left _ _
      have h3 : min lEnd (w (j + 1)) < max lBegin (w j) :=
        lt_of_le_of_lt h1 (lt_of_lt_of_le hwj h2)
      exact fun hguard => absurd h3 (not_lt.mpr (le_of_lt hguard))
    rw [segTerm, if_neg hng]
  have hsplit : pwlIntegral w v count lBegin lEnd
      = ∑ j ∈ Finset.Ico i0 (count - 1), segTerm w v lBegin lEnd j := by
    rw [pwlIntegral, Finset.range_eq_Ico,
      ← Finset.sum_Ico_consecutive _ (Nat.zero_le i0) (by omega : i0 ≤ count - 1),
      Finset.sum_eq_zero hprefix, zero_add]
  rw [hsplit, mul_one_div]

/-- The running-sum loop of yIntegral equals a closed-form finite sum. -/
lemma foldl_add_eq_sum (f : ℕ → ℚ) :
    ∀ (n : ℕ) (init : ℚ),
      (List.range n).foldl (fun acc i => acc + f i) init
        = init + ∑ i ∈ Finset.range n, f i := by
  intro n
  induction n with
  | zero => intro init; simp
  | succ n ih =>
    intro init
    rw [List.range_succ, List.foldl_append, ih, Finset.sum_range_succ]
    simp [add_assoc]

/-- The three-accumulator loop of toXYZ equals three closed-form sums. -/
lemma foldl_triple_eq_sum (f g h : ℕ → ℚ) :
    ∀ (n : ℕ) (p : ℚ × ℚ × ℚ),
      (List.range n).foldl
          (fun q i => (q.1 + f i, q.2.1 + g i, q.2.2 + h i)) p
        = (p.1 + ∑ i ∈ Finset.range n, f i,
           p.2.1 + ∑ i ∈ Finset.range n, g i,
           p.2.2 + ∑ i ∈ Finset.range n, h i) := by
  intro n
  induction n with
  | zero => intro p; simp
  | succ n ih =>
    intro p
    rw [List.range_succ, List.foldl_append, ih]
    simp [Finset.sum_range_succ, add_assoc]

/-- toXYZ in closed form: three weighted sums against the color-matching
spectra, scaled by (WavelengthEnd - WavelengthBegin) / (SampleCount * yIntegral). -/
lemma toXYZ_eq_sums (t : CIETable) (s : SampledSpectrum) :
    toXYZ t s
      = ⟨(∑ i ∈ Finset.range SpectralSampleCount, X t i * s i)
           * ((WavelengthEnd - WavelengthBegin)
              / ((SpectralSampleCount : ℚ) * yIntegral t)),
         (∑ i ∈ Finset.range SpectralSampleCount, Y t i * s i)
           * ((WavelengthEnd - WavelengthBegin)
              / ((SpectralSampleCount : ℚ) * yIntegral t)),
         (∑ i ∈ Finset.range SpectralSampleCount, Z t i * s i)
           * ((WavelengthEnd - WavelengthBegin)
              / ((SpectralSampleCount : ℚ) * yIntegral t))⟩ := by
  rw [toXYZ]
  rw [foldl_triple_eq_sum (fun i => X t i * s i) (fun i => Y t i * s i)
    (fun i => Z t i * s i) SpectralSampleCount (0, 0, 0)]
  simp

/-- The piecewise-linear overlap integral of a constant-valued table over a
subinterval of the covered range is the constant times the interval width. -/
lemma pwlIntegral_const (w v : ℕ → ℚ) (count : ℕ) (a b c : ℚ)
    (hc : 2 ≤ count) (hmono : ∀ j, j + 1 < count → w j < w (j + 1))
    (hval : ∀ i, i < count → v i = c)
    (ha : w 0 ≤ a) (hab : a ≤ b) (hb : b ≤ w (count - 1)) :
    pwlIntegral w v count a b = c * (b - a) := by
  have key : ∀ j ∈ Finset.range (count - 1),
      segTerm w v a b j
        = c * (max a (min b (w (j + 1))) - max a (min b (w j))) := by
    intro j hj
    have hjc : j + 1 < count := by
      have := Finset.mem_range.mp hj
      omega
    have hwj : w j < w (j + 1) := hmono j hjc
    have hvj : v j = c := hval j (by omega)
    have hvj1 : v (j + 1) = c := hval (j + 1) hjc
    have hinterp : ∀ l : ℚ, interpolate w v l j = c := by
      intro l
      rw [interpolate, hvj, hvj1]
      ring
    rcases lt_or_le (max a (w j)) (min b (w (j + 1))) with hguard | hguard
    · rw [segTerm, if_pos hguard, hinterp, hinterp]
      have hmax1 : max a (min b (w (j + 1))) = min b (w (j + 1)) :=
        max_eq_right (le_of_lt (lt_of_le_of_lt (le_max_left _ _) hguard))
      have hwjb : w j ≤ b :=
        le_of_lt (lt_of_le_of_lt (le_max_right _ _)
          (lt_of_lt_of_le hguard (min_le_left _ _)))
      have hmin1 : min b (w j) = w j := min_eq_right hwjb
      rw [hmax1, hmin1]
      ring
    · rw [segTerm, if_neg (not_lt.mpr hguard)]
      rcases le_or_lt (min b (w (j + 1))) a with hcase | hcase
      · have h1 : min b (w j) ≤ a :=
          le_trans (le_trans (min_le_min (le_refl b) (le_of_lt hwj)) hcase)
            (le_refl a)
        rw [max_eq_left hcase, max_eq_left h1, sub_self, mul_zero]
      · have hmaxw : max a (w j) = w j := by
          rcases max_choice a (w j) with h | h
          · exfalso
            rw [h] at hguard
            exact absurd hcase (not_lt.mpr hguard)
          · exact h
        have hwjge : min b (w (j + 1)) ≤ w j := by
          rw [← hmaxw]
          exact hguard
        have hminb : min b (w (j + 1)) = b := by
          rcases min_choice b (w (j + 1)) with h | h
          · exact h
          · exfalso
            rw [h] at hwjge
            exact absurd hwj (not_lt.mpr hwjge)
        have hbwj : b ≤ w j := by
          rw [← hminb]
          exact hwjge
        have hminb2 : min b (w j) = b := min_eq_left hbwj
        rw [hminb, hminb2, sub_self, mul_zero]
  rw [pwlIntegral, Finset.sum_congr rfl key, ← Finset.mul_sum,
    Finset.sum_range_sub (fun j => max a (min b (w j)))]
  have hlast : min b (w (count - 1)) = b := min_eq_left hb
  have hfirst : min b (w 0) = w 0 := min_eq_right (le_trans ha hab)
  rw [hlast, hfirst, max_eq_right hab, max_eq_left ha]

/-- C1: for every table with count ≥ 2 and strictly increasing wavelengths,
and every query interval [lBegin, lEnd) with lBegin < lEnd that overlaps the
covered range [w 0, w (count-1)] in an interval of positive width,
averageSamples returns the integral of the piecewise-linear interpolant of
the input over the intersection of [lBegin, lEnd) with the covered range
(pwlIntegral, in which any part of the requested interval outside the covered
range contributes zero energy rather than the boundary value), divided by the
full requested width lEnd - lBegin. -/
theorem averageSamples_overlap_spec (w v : ℕ → ℚ) (count : ℕ) (lBegin lEnd : ℚ)
    (hc : 2 ≤ count) (hmono : ∀ j, j + 1 < count → w j < w (j + 1))
    (hab : lBegin < lEnd) (hov1 : w 0 < lEnd) (hov2 : lBegin < w (count - 1)) :
    averageSamples w v count lBegin lEnd
      = pwlIntegral w v count lBegin lEnd / (lEnd - lBegin) :=
  averageSamples_eq_pwl w v count lBegin lEnd hc hmono hab hov1 hov2

/-- Witness for C1: the ramp table with query [450, 650), which sticks out of
the covered range [500, 600] on both sides. -/
theorem averageSamples_overlap_spec_witness :
    (2 ≤ 2 ∧ (∀ j, j + 1 < 2 → rampW j < rampW (j + 1)) ∧ (450:ℚ) < 650
      ∧ rampW 0 < 650 ∧ (450:ℚ) < rampW (2 - 1))
    ∧ averageSamples rampW rampV 2 450 650
        = pwlIntegral rampW rampV 2 450 650 / (650 - 450) :=
  ⟨⟨le_refl 2,
    by
      intro j hj
      have hj0 : j = 0 := by omega
      rw [hj0]
      norm_num [rampW],
    by norm_num, by norm_num [rampW], by norm_num [rampW]⟩,
   averageSamples_overlap_spec rampW rampV 2 450 650 (le_refl 2)
     (by
       intro j hj
       have hj0 : j = 0 := by omega
       rw [hj0]
       norm_num [rampW])
     (by norm_num) (by norm_num [rampW]) (by norm_num [rampW])⟩

/-- C2: for every table satisfying the preconditions, bin i < 60 of
fromSamples equals averageSamples over [lerp(i/N), lerp((i+1)/N)) with
lerp(t) = WavelengthBegin*(1-t) + WavelengthEnd*t and N = 60. -/
theorem fromSamples_bins (w v : ℕ → ℚ) (count : ℕ) (i : ℕ)
    (hc : 1 ≤ count) (hmono : ∀ j, j + 1 < count → w j < w (j + 1))
    (hi : i < SpectralSampleCount) :
    fromSamples w v count i
      = averageSamples w v count
          (specLerp ((i : ℚ) / (SpectralSampleCount : ℚ)))
          (specLerp (((i : ℚ) + 1) / (SpectralSampleCount : ℚ))) := rfl

/-- Witness for C2: the degenerate one-entry constant table, bin 0. -/
theorem fromSamples_bins_witness :
    (1 ≤ 1 ∧ (∀ j, j + 1 < 1 → constV j < constV (j + 1))
      ∧ 0 < SpectralSampleCount)
    ∧ fromSamples constV constV 1 0
        = averageSamples constV constV 1
            (specLerp (((0:ℕ) : ℚ) / (SpectralSampleCount : ℚ)))
            (specLerp ((((0:ℕ) : ℚ) + 1) / (SpectralSampleCount : ℚ))) :=
  ⟨⟨le_refl 1, fun j hj => absurd hj (by omega),
    by norm_num [SpectralSampleCount]⟩,
   fromSamples_bins constV constV 1 0 (le_refl 1)
     (fun j hj => absurd hj (by omega)) (by norm_num [SpectralSampleCount])⟩

/-- C3: toXYZ returns the three sums of s[i] times the color-matching
spectra, each scaled by (WavelengthEnd - WavelengthBegin) divided by
(SampleCount times yIntegral); toXYZ of the all-zero spectrum is (0,0,0). -/
theorem toXYZ_spec (t : CIETable) (s : SampledSpectrum) :
    toXYZ t s
      = ⟨(∑ i ∈ Finset.range SpectralSampleCount, s i * X t i)
           * ((WavelengthEnd - WavelengthBegin)
              / ((SpectralSampleCount : ℚ) * yIntegral t)),
         (∑ i ∈ Finset.range SpectralSampleCount, s i * Y t i)
           * ((WavelengthEnd - WavelengthBegin)
              / ((SpectralSampleCount : ℚ) * yIntegral t)),
         (∑ i ∈ Finset.range SpectralSampleCount, s i * Z t i)
           * ((WavelengthEnd - WavelengthBegin)
              / ((SpectralSampleCount : ℚ) * yIntegral t))⟩
    ∧ toXYZ t (fun _ => 0) = ⟨0, 0, 0⟩ := by
  constructor
  · rw [toXYZ_eq_sums]
    have hx : ∀ f : ℕ → ℚ, ∑ i ∈ Finset.range SpectralSampleCount, f i * s i
        = ∑ i ∈ Finset.range SpectralSampleCount, s i * f i := fun f =>
      Finset.sum_congr rfl (fun i _ => mul_comm _ _)
    rw [hx (X t), hx (Y t), hx (Z t)]
  · rw [toXYZ_eq_sums]
    simp

/-- C9: yIntegral is the plain running sum of the 471 raw CIE ybar table
entries. -/
theorem yIntegral_spec (t : CIETable) :
    yIntegral t = ∑ i ∈ Finset.range 471, t.y i := by
  rw [yIntegral, foldl_add_eq_sum, zero_add]
  norm_num [CIE.sampleCount]

/-- C4: under the preconditions, a query interval entirely before the first
sample yields values[0] and one entirely after the last sample yields
values[count-1] (edge clamping, no extrapolation). -/
theorem averageSamples_clamp (w v : ℕ → ℚ) (count : ℕ) (lBegin lEnd : ℚ)
    (hc : 1 ≤ count) (hmono : ∀ j, j + 1 < count → w j < w (j + 1))
    (hab : lBegin < lEnd) :
    (lEnd ≤ w 0 → averageSamples w v count lBegin lEnd = v 0)
    ∧ (w (count - 1) ≤ lBegin
        → averageSamples w v count lBegin lEnd = v (count - 1)) := by
  constructor
  · intro h
    by_cases h1 : count = 1
    · rw [averageSamples, if_pos h1]
    · rw [averageSamples, if_neg h1, if_pos h]
  · intro h
    by_cases h1 : count = 1
    · rw [averageSamples, if_pos h1, h1]
    · have hw0 : w 0 ≤ w (count - 1) :=
        w_mono_le w count hmono 0 (count - 1) (Nat.zero_le _) (by omega)
      have h2 : ¬ lEnd ≤ w 0 := by
        intro hle
        exact absurd (lt_of_lt_of_le hab (le_trans hle (le_trans hw0 h)))
          (lt_irrefl lBegin)
      rw [averageSamples, if_neg h1, if_neg h2, if_pos h]

/-- Witness for C4: the ramp table clamped on the right by query [700, 800). -/
theorem averageSamples_clamp_witness :
    (1 ≤ 2 ∧ (∀ j, j + 1 < 2 → rampW j < rampW (j + 1)) ∧ (700:ℚ) < 800)
    ∧ ((800:ℚ) ≤ rampW 0 → averageSamples rampW rampV 2 700 800 = rampV 0)
    ∧ (rampW (2 - 1) ≤ 700
        → averageSamples rampW rampV 2 700 800 = rampV (2 - 1)) :=
  ⟨⟨by omega,
    by
      intro j hj
      have hj0 : j = 0 := by omega
      rw [hj0]
      norm_num [rampW],
    by norm_num⟩,
   averageSamples_clamp rampW rampV 2 700 800 (by omega)
     (by
       intro j hj
       have hj0 : j = 0 := by omega
       rw [hj0]
       norm_num [rampW])
     (by norm_num)⟩

/-- C5: for a single-sample input, averageSamples returns values[0] whatever
the wavelengths table and the interval bounds are. -/
theorem averageSamples_single (w v : ℕ → ℚ) (lBegin lEnd : ℚ) :
    averageSamples w v 1 lBegin lEnd = v 0 := by
  rw [averageSamples, if_pos rfl]

/-- C6: averageSamples over the linear ramp (wavelengths [500, 600], values
[0, 100]) queried on [500, 600) returns the analytic trapezoid average 50. -/
theorem averageSamples_ramp_avg :
    averageSamples rampW rampV 2 500 600 = 50 := by
  norm_num [averageSamples, segLoopAux, cursorAux, interpolate, rampW, rampV]

/-- toXYZ is linear in the spectrum argument. -/
lemma toXYZ_linear (t : CIETable) (k1 k2 : ℚ) (s1 s2 : SampledSpectrum) :
    toXYZ t (fun i => k1 * s1 i + k2 * s2 i)
      = ⟨k1 * (toXYZ t s1).a + k2 * (toXYZ t s2).a,
         k1 * (toXYZ t s1).b + k2 * (toXYZ t s2).b,
         k1 * (toXYZ t s1).c + k2 * (toXYZ t s2).c⟩ := by
  simp only [toXYZ_eq_sums, Float3.mk.injEq]
  have key : ∀ f : ℕ → ℚ,
      ∑ i ∈ Finset.range SpectralSampleCount, f i * (k1 * s1 i + k2 * s2 i)
        = k1 * ∑ i ∈ Finset.range SpectralSampleCount, f i * s1 i
          + k2 * ∑ i ∈ Finset.range SpectralSampleCount, f i * s2 i := by
    intro f
    rw [Finset.mul_sum, Finset.mul_sum, ← Finset.sum_add_distrib]
    exact Finset.sum_congr rfl (fun i _ => by ring)
  refine ⟨?_, ?_, ?_⟩
  · rw [key (X t)]
    ring
  · rw [key (Y t)]
    ring
  · rw [key (Z t)]
    ring

/-- C8: toRGB is linear in its input, and is exactly the composition of
toXYZ with the fixed 3x3 matrix, with no clamping applied. -/
theorem toRGB_linear_spec (t : CIETable) (k1 k2 : ℚ) (s1 s2 : SampledSpectrum) :
    toRGB t (fun i => k1 * s1 i + k2 * s2 i)
      = ⟨k1 * (toRGB t s1).a + k2 * (toRGB t s2).a,
         k1 * (toRGB t s1).b + k2 * (toRGB t s2).b,
         k1 * (toRGB t s1).c + k2 * (toRGB t s2).c⟩
    ∧ ∀ s : SampledSpectrum, toRGB t s
        = ⟨3.240479 * (toXYZ t s).a - 1.537150 * (toXYZ t s).b
             - 0.498535 * (toXYZ t s).c,
           -0.969256 * (toXYZ t s).a + 1.875991 * (toXYZ t s).b
             + 0.041556 * (toXYZ t s).c,
           0.055648 * (toXYZ t s).a - 0.204043 * (toXYZ t s).b
             + 1.057311 * (toXYZ t s).c⟩ := by
  constructor
  · simp only [toRGB, toXYZ_linear, Float3.mk.injEq]
    refine ⟨?_, ?_, ?_⟩ <;> ring
  · intro s
    rfl

/-- C7: resampling a table whose values are all the constant c and whose
covered wavelength range contains [WavelengthBegin, WavelengthEnd] yields a
spectrum in which every one of the bins equals c. -/
theorem fromSamples_const_spec (w v : ℕ → ℚ) (count : ℕ) (c : ℚ) (i : ℕ)
    (hmono : ∀ j, j + 1 < count → w j < w (j + 1))
    (hval : ∀ j, j < count → v j = c)
    (hcovl : w 0 ≤ WavelengthBegin) (hcovr : WavelengthEnd ≤ w (count - 1))
    (hi : i < SpectralSampleCount) :
    fromSamples w v count i = c := by
  have hcovl4 : w 0 ≤ (400:ℚ) := hcovl
  have hcovr7 : (700:ℚ) ≤ w (count - 1) := hcovr
  have hc2 : 2 ≤ count := by
    by_contra hlt
    have h01 : count - 1 = 0 := by omega
    rw [h01] at hcovr7
    have hcontr : (700:ℚ) ≤ 400 := le_trans hcovr7 hcovl4
    norm_num at hcontr
  have hi59 : (i : ℚ) ≤ 59 := by
    have h1 : i ≤ 59 := by
      have h2 := hi
      simp only [SpectralSampleCount] at h2
      omega
    exact_mod_cast h1
  have hi0 : (0:ℚ) ≤ (i : ℚ) := Nat.cast_nonneg i
  rw [show fromSamples w v count i
      = averageSamples w v count
          (WavelengthBegin * (1 - (i : ℚ) / (SpectralSampleCount : ℚ))
            + WavelengthEnd * ((i : ℚ) / (SpectralSampleCount : ℚ)))
          (WavelengthBegin * (1 - ((i : ℚ) + 1) / (SpectralSampleCount : ℚ))
            + WavelengthEnd * (((i : ℚ) + 1) / (SpectralSampleCount : ℚ)))
      from rfl]
  set a : ℚ := WavelengthBegin * (1 - (i : ℚ) / (SpectralSampleCount : ℚ))
      + WavelengthEnd * ((i : ℚ) / (SpectralSampleCount : ℚ)) with hadef
  set b : ℚ := WavelengthBegin * (1 - ((i : ℚ) + 1) / (SpectralSampleCount : ℚ))
      + WavelengthEnd * (((i : ℚ) + 1) / (SpectralSampleCount : ℚ)) with hbdef
  have ha5 : a = 400 + 5 * (i : ℚ) := by
    rw [hadef]
    simp only [WavelengthBegin, WavelengthEnd, SpectralSampleCount]
    push_cast
    ring
  have hb5 : b = 400 + 5 * ((i : ℚ) + 1) := by
    rw [hbdef]
    simp only [WavelengthBegin, WavelengthEnd, SpectralSampleCount]
    push_cast
    ring
  have hab : a < b := by
    rw [ha5, hb5]
    linarith
  have hov1 : w 0 < b := by
    rw [hb5]
    linarith
  have hov2 : a < w (count - 1) := by
    rw [ha5]
    linarith
  have hwa : w 0 ≤ a := by
    rw [ha5]
    linarith
  have hwb : b ≤ w (count - 1) := by
    rw [hb5]
    linarith
  rw [averageSamples_eq_pwl w v count a b hc2 hmono hab hov1 hov2,
    pwlIntegral_const w v count a b c hc2 hmono hval hwa (le_of_lt hab) hwb]
  have hba : b - a = 5 := by
    rw [ha5, hb5]
    ring
  rw [hba]
  ring

/-- Witness for C7: the table wavelengths [400, 700] with constant value 3,
bin 0. -/
theorem fromSamples_const_spec_witness :
    ((∀ j, j + 1 < 2 → coverW j < coverW (j + 1))
      ∧ (∀ j, j < 2 → constV j = 3)
      ∧ coverW 0 ≤ WavelengthBegin ∧ WavelengthEnd ≤ coverW (2 - 1)
      ∧ 0 < SpectralSampleCount)
    ∧ fromSamples coverW constV 2 0 = 3 :=
  ⟨⟨by
      intro j hj
      have hj0 : j = 0 := by omega
      rw [hj0]
      norm_num [coverW],
    by
      intro j hj
      norm_num [constV],
    by norm_num [coverW, WavelengthBegin],
    by norm_num [coverW, WavelengthEnd],
    by norm_num [SpectralSampleCount]⟩,
   fromSamples_const_spec coverW constV 2 3 0
     (by
       intro j hj
       have hj0 : j = 0 := by omega
       rw [hj0]
       norm_num [coverW])
     (by
       intro j hj
       norm_num [constV])
     (by norm_num [coverW, WavelengthBegin])
     (by norm_num [coverW, WavelengthEnd])
     (by norm_num [SpectralSampleCount])⟩

/-- C10: under the preconditions, averageSamples depends only on the first
count entries of both input arrays (so it never reads outside [0, count)):
whenever the integration loops are reached, the cursor-advance loop exits at
an index i with lBegin ≤ w (i+1) and i + 1 ≤ count - 1, so the segment loop
only touches indices i and i + 1 with i + 1 < count; and every interpolation
divisor w (j+1) - w j with j + 1 < count is strictly positive. -/
theorem averageSamples_safe (w v : ℕ → ℚ) (count : ℕ) (lBegin lEnd : ℚ)
    (hc : 1 ≤ count) (hmono : ∀ j, j + 1 < count → w j < w (j + 1))
    (hab : lBegin < lEnd) :
    (∀ wn vn : ℕ → ℚ, (∀ i, i < count → w i = wn i)
        → (∀ i, i < count → v i = vn i)
        → averageSamples w v count lBegin lEnd
            = averageSamples wn vn count lBegin lEnd)
    ∧ (2 ≤ count → w 0 < lEnd → lBegin < w (count - 1)
        → lBegin ≤ w (cursorAux w lBegin count 0 + 1)
          ∧ cursorAux w lBegin count 0 + 1 ≤ count - 1)
    ∧ (∀ j, j + 1 < count → 0 < w (j + 1) - w j) := by
  refine ⟨?_, ?_, fun j hj => sub_pos.mpr (hmono j hj)⟩
  · intro wn vn hw hv
    by_cases h1 : count = 1
    · rw [averageSamples, averageSamples, if_pos h1, if_pos h1]
      exact hv 0 (by omega)
    · have hc2 : 2 ≤ count := by omega
      have hw0 : w 0 = wn 0 := hw 0 (by omega)
      have hwl : w (count - 1) = wn (count - 1) := hw (count - 1) (by omega)
      by_cases hE : lEnd ≤ w 0
      · have hEn : lEnd ≤ wn 0 := by
          rw [← hw0]
          exact hE
        rw [averageSamples, averageSamples, if_neg h1, if_neg h1, if_pos hE,
          if_pos hEn]
        exact hv 0 (by omega)
      · by_cases hB : w (count - 1) ≤ lBegin
        · have hEn : ¬ lEnd ≤ wn 0 := by
            rw [← hw0]
            exact hE
          have hBn : wn (count - 1) ≤ lBegin := by
            rw [← hwl]
            exact hB
          rw [averageSamples, averageSamples, if_neg h1, if_neg h1, if_neg hE,
            if_pos hB, if_neg hEn, if_pos hBn]
          exact hv (count - 1) (by omega)
        · have hov1 : w 0 < lEnd := not_le.mp hE
          have hov2 : lBegin < w (count - 1) := not_le.mp hB
          have hov1n : wn 0 < lEnd := by
            rw [← hw0]
            exact hov1
          have hov2n : lBegin < wn (count - 1) := by
            rw [← hwl]
            exact hov2
          have hmono2 : ∀ j, j + 1 < count → wn j < wn (j + 1) := by
            intro j hj
            rw [← hw j (by omega), ← hw (j + 1) hj]
            exact hmono j hj
          rw [averageSamples_eq_pwl w v count lBegin lEnd hc2 hmono hab
              hov1 hov2,
            averageSamples_eq_pwl wn vn count lBegin lEnd hc2 hmono2 hab
              hov1n hov2n]
          have hpwl : pwlIntegral w v count lBegin lEnd
              = pwlIntegral wn vn count lBegin lEnd := by
            rw [pwlIntegral, pwlIntegral]
            refine Finset.sum_congr rfl ?_
            intro j hj
            have hjc : j + 1 < count := by
              have hjr := Finset.mem_range.mp hj
              omega
            simp only [segTerm, interpolate]
            rw [hw j (by omega), hw (j + 1) hjc, hv j (by omega),
              hv (j + 1) hjc]
          rw [hpwl]
  · intro hc2 hov1 hov2
    have hex : ∃ d, d < count ∧ 0 + d + 1 < count ∧ lBegin ≤ w (0 + d + 1) := by
      refine ⟨count - 2, by omega, by omega, ?_⟩
      have harith : 0 + (count - 2) + 1 = count - 1 := by omega
      rw [harith]
      exact le_of_lt hov2
    obtain ⟨r1, r2, r3, r4⟩ := cursorAux_spec w lBegin count count 0 hex
    exact ⟨r1, by omega⟩

/-- Witness for C10: the ramp table with query [450, 650). -/
theorem averageSamples_safe_witness :
    (1 ≤ 2 ∧ (∀ j, j + 1 < 2 → rampW j < rampW (j + 1)) ∧ (450:ℚ) < 650)
    ∧ ((∀ wn vn : ℕ → ℚ, (∀ i, i < 2 → rampW i = wn i)
          → (∀ i, i < 2 → rampV i = vn i)
          → averageSamples rampW rampV 2 450 650
              = averageSamples wn vn 2 450 650)
        ∧ (2 ≤ 2 → rampW 0 < 650 → (450:ℚ) < rampW (2 - 1)
            → (450:ℚ) ≤ rampW (cursorAux rampW 450 2 0 + 1)
              ∧ cursorAux rampW 450 2 0 + 1 ≤ 2 - 1)
        ∧ (∀ j, j + 1 < 2 → 0 < rampW (j + 1) - rampW j)) :=
  ⟨⟨by omega,
    by
      intro j hj
      have hj0 : j = 0 := by omega
      rw [hj0]
      norm_num [rampW],
    by norm_num⟩,
   averageSamples_safe rampW rampV 2 450 650 (by omega)
     (by
       intro j hj
       have hj0 : j = 0 := by omega
       rw [hj0]
       norm_num [rampW])
     (by norm_num)⟩
